import Mathlib

/-!
# Verification of the `github_analytics` PR metrics engine

A shallow embedding of `src/github_analytics/analyze.py` together with
proofs about the embedded definitions.

Modelling conventions:
- A GitHub user object is identified with its login string (`User := String`);
  the PyGithub objects compare by identity/login, and the analyzer only ever
  uses logins to distinguish users.
- `datetime` timestamps are modelled as integer seconds (`Int`); durations
  computed from them (`total_seconds() / (60 * 60)`) are modelled as exact
  rationals (`ℚ`).
- Python's `list.sort` / `sorted` are stable sorts; a stable sort is uniquely
  determined by the key order and the input order, so they are modelled by
  `List.insertionSort`, which Mathlib proves stable (`sublist_insertionSort`).
- Python `set`s are modelled as deduplicated lists (`List.dedup`), which have
  exactly the membership semantics of the Python sets used by the source.
-/

namespace GithubAnalytics

/-- A GitHub user, identified by login. -/
abbrev User := String

/-- A PR review, as used by the source: its author and submission time. -/
structure Review where
  user : User
  submittedAt : Int
deriving DecidableEq

/-- A PR commit, as used by the source: its `commit.author.date`. -/
structure Commit where
  authorDate : Int
deriving DecidableEq

/-- A pull request with the fields read by `analyze.py`. -/
structure PR where
  title : String
  user : User
  baseLabel : String
  createdAt : Int
  mergedAt : Option Int
  additions : Nat
  deletions : Nat
  requestedReviewers : List User
  reviews : List Review
  commits : List Commit
deriving DecidableEq

/-! ## `_cnt_pr_passes` (analyze.py lines 24-35) -/

/-- Event tags used by `_cnt_pr_passes`: `"review"` or `"commit"`. -/
inductive EvtType where
  | review : EvtType
  | commit : EvtType
deriving DecidableEq

/-- An event of the stream built in `_cnt_pr_passes`: a tag and a timestamp. -/
abbrev Evt := EvtType × Int

/-- The event stream of `_cnt_pr_passes` before sorting: one `review` event per
review whose author is not the PR author, then one `commit` event per commit
(commit authorship is not filtered). -/
def eventsOf (reviews : List Review) (commits : List Commit) (author : User) : List Evt :=
  ((reviews.filter (fun r => r.user ≠ author)).map (fun r => (EvtType.review, r.submittedAt)))
    ++ commits.map (fun c => (EvtType.commit, c.authorDate))

/-- The sort key order of `events.sort(key=lambda e: e[1])`: compare timestamps. -/
def evtLe (a b : Evt) : Prop := a.2 ≤ b.2

instance : DecidableRel evtLe := fun a b => inferInstanceAs (Decidable (a.2 ≤ b.2))

instance : IsTotal Evt evtLe := ⟨fun a b => Int.le_total a.2 b.2⟩

instance : IsTrans Evt evtLe := ⟨fun _ _ _ h h' => Int.le_trans h h'⟩

/-- The time-sorted event stream (`events.sort` is a stable sort). -/
def sortedEvents (reviews : List Review) (commits : List Commit) (author : User) : List Evt :=
  (eventsOf reviews commits author).insertionSort evtLe

/-- The scan of `_cnt_pr_passes`: starting from state `last`, count review
events that immediately follow a commit state. -/
def scanPasses : EvtType → List Evt → Nat
  | _, [] => 0
  | last, (t, _) :: rest =>
    (if last = EvtType.commit ∧ t = EvtType.review then 1 else 0) + scanPasses t rest

/-- `_cnt_pr_passes(reviews, commits, author)`: sort the event stream by
timestamp and scan it starting from `last = "commit"`. -/
def cntPrPasses (reviews : List Review) (commits : List Commit) (author : User) : Nat :=
  scanPasses EvtType.commit (sortedEvents reviews commits author)

/-- Spec-side count: the number of strict commit→review adjacencies of an event
sequence, read off by pairing each event with the type of its predecessor (the
predecessor of the first event being the implicit initial `commit` state). -/
def commitReviewAdjacencies (l : List Evt) : Nat :=
  (l.zip (EvtType.commit :: l.map Prod.fst)).countP
    (fun p => decide (p.1.1 = EvtType.review ∧ p.2 = EvtType.commit))

theorem scanPasses_eq_adjacencies (last : EvtType) (l : List Evt) :
    scanPasses last l =
      (l.zip (last :: l.map Prod.fst)).countP
        (fun p => decide (p.1.1 = EvtType.review ∧ p.2 = EvtType.commit)) := by
  induction l generalizing last with
  | nil => simp [scanPasses]
  | cons x rest ih =>
    obtain ⟨t, ts⟩ := x
    simp only [scanPasses, List.map_cons, List.zip_cons_cons, List.countP_cons, ih t]
    by_cases h : last = EvtType.commit ∧ t = EvtType.review
    · obtain ⟨h1, h2⟩ := h
      subst h1; subst h2
      simp [Nat.add_comm]
    · have : ¬ (t = EvtType.review ∧ last = EvtType.commit) := fun hc => h ⟨hc.2, hc.1⟩
      simp [h, this]

theorem scanPasses_le_reviewCount (last : EvtType) (l : List Evt) :
    scanPasses last l ≤ l.countP (fun e => decide (e.1 = EvtType.review)) := by
  induction l generalizing last with
  | nil => simp [scanPasses]
  | cons x rest ih =>
    obtain ⟨t, ts⟩ := x
    have h1 := ih t
    cases last <;> cases t <;>
      simp only [scanPasses, List.countP_cons] <;> simp <;> omega

theorem countP_review_eventsOf (reviews : List Review) (commits : List Commit) (author : User) :
    (eventsOf reviews commits author).countP (fun e => decide (e.1 = EvtType.review))
      = (reviews.filter (fun r => r.user ≠ author)).length := by
  simp [eventsOf, List.countP_append, List.countP_map, Function.comp_def]

/-- Stability of `orderedInsert` for the equal-timestamp block: inserting an
event with timestamp `t` puts it in front of every already-present event with
timestamp `t` (the skipped events all have strictly smaller timestamps). -/
theorem filter_orderedInsert_of_time_eq (t : Int) (x : Evt) (l : List Evt) (hx : x.2 = t) :
    (l.orderedInsert evtLe x).filter (fun e => decide (e.2 = t))
      = x :: l.filter (fun e => decide (e.2 = t)) := by
  induction l with
  | nil => simp [hx]
  | cons y ys ih =>
    by_cases h : evtLe x y
    · simp only [List.orderedInsert]
      rw [if_pos h]
      simp [hx]
    · have hy : ¬ (y.2 = t) := by
        intro hyt
        exact h (by simp [evtLe, hx, hyt])
      simp only [List.orderedInsert]
      rw [if_neg h]
      simp [List.filter_cons, hy, ih]

theorem filter_orderedInsert_of_time_ne (t : Int) (x : Evt) (l : List Evt) (hx : ¬ x.2 = t) :
    (l.orderedInsert evtLe x).filter (fun e => decide (e.2 = t))
      = l.filter (fun e => decide (e.2 = t)) := by
  induction l with
  | nil => simp [hx]
  | cons y ys ih =>
    by_cases h : evtLe x y
    · simp only [List.orderedInsert]
      rw [if_pos h]
      simp [hx]
    · simp only [List.orderedInsert]
      rw [if_neg h]
      simp only [List.filter_cons, ih]

/-- Stability of the sort used by `_cnt_pr_passes`: the subsequence of events
carrying any fixed timestamp `t` is exactly the subsequence of such events in
the unsorted stream, in input order. -/
theorem filter_time_insertionSort (l : List Evt) (t : Int) :
    (l.insertionSort evtLe).filter (fun e => decide (e.2 = t))
      = l.filter (fun e => decide (e.2 = t)) := by
  induction l with
  | nil => rfl
  | cons x xs ih =>
    simp only [List.insertionSort]
    by_cases hx : x.2 = t
    · rw [filter_orderedInsert_of_time_eq t x _ hx, ih]
      simp [hx]
    · rw [filter_orderedInsert_of_time_ne t x _ hx, ih]
      simp [hx]

/-! ## `_parse_pr_title_verb` (analyze.py lines 12-21) -/

/-- A character of the regex class `[\w\-& ]` (ASCII reading of `\w`). -/
def isTagChar (c : Char) : Bool :=
  c.isAlphanum || c = '_' || c = '-' || c = '&' || c = ' '

/-- Length of a match of `[\w\-& ]+\] ` at the start of `l` (the part of the
pattern after the opening `[`), if any.  The class excludes `]`, so the greedy
run is the maximal run of class characters and no backtracking can succeed
where the maximal run fails. -/
def tagMatchLen (l : List Char) : Option Nat :=
  let run := l.takeWhile isTagChar
  match l.drop run.length with
  | ']' :: ' ' :: _ => if run.length = 0 then none else some (run.length + 2)
  | _ => none

/-- One left-to-right pass of `re.sub(r"\[[\w\-& ]+\] ", "", s)`: at each
position, remove the leftmost non-overlapping match and continue after it,
otherwise keep the character.  `fuel` bounds the recursion; every step consumes
at least one character, so `fuel = l.length` never runs out. -/
def subTagsAux : Nat → List Char → List Char
  | 0, l => l
  | _ + 1, [] => []
  | fuel + 1, c :: rest =>
    if c = '[' then
      match tagMatchLen rest with
      | some n => subTagsAux fuel (rest.drop n)
      | none => c :: subTagsAux fuel rest
    else c :: subTagsAux fuel rest

/-- `re.sub(r"\[[\w\-& ]+\] ", "", s)` over the characters of `s`. -/
def subTags (l : List Char) : List Char :=
  subTagsAux l.length l

/-- The three sequential synonym rewrites of `_parse_pr_title_verb` (the
source's three consecutive `if` statements reassigning `verb`). -/
def pySynonyms (verb : String) : String :=
  let verb1 := if verb = "adding" ∨ verb = "added" then "add" else verb
  let verb2 := if verb1 = "fixing" then "fix" else verb1
  if verb2 = "removing" then "remove" else verb2

/-- `_parse_pr_title_verb(pr)`: remove every `[<tag>] ` match, lowercase, take
the text before the first space (`.split(" ")[0]`), remove every colon
(`.replace(":", "")`), then apply the three synonym rewrites in sequence. -/
def parsePrTitleVerb (title : String) : String :=
  pySynonyms (String.mk
    ((((subTags title.data).map Char.toLower).takeWhile (fun c => c ≠ ' ')).filter
      (fun c => c ≠ ':')))

/-- Spec-side formulation of "take the first whitespace-delimited token" when
the delimiter is the space character, written as its own recursion. -/
def specFirstToken : List Char → List Char
  | [] => []
  | c :: rest => if c = ' ' then [] else c :: specFirstToken rest

/-- Spec-side formulation of "remove the colons", written as its own
recursion. -/
def specRemoveColons : List Char → List Char
  | [] => []
  | c :: rest => if c = ':' then specRemoveColons rest else c :: specRemoveColons rest

/-- Spec-side synonym table: `adding|added → add`, `fixing → fix`,
`removing → remove`. -/
def specSynonym (v : String) : String :=
  if v = "adding" ∨ v = "added" then "add"
  else if v = "fixing" then "fix"
  else if v = "removing" then "remove"
  else v

/-- The title-verb pipeline as the spec describes it, amended to match the
source on the three points the source differs from the spec wording: every
occurrence of a `[<tag>] ` pattern is removed (not just one leading tag), the
first token is delimited by the space character only, and every colon is
removed (not just a trailing one). -/
def specAmendedVerb (title : String) : String :=
  specSynonym (String.mk (specRemoveColons (specFirstToken
    ((subTags title.data).map Char.toLower))))

/-- The claim's algorithm exactly as worded: strip exactly one leading
bracketed tag `[<tag>] `, lowercase, take the first whitespace-delimited
token, strip a trailing colon, then apply the synonym table. -/
def specOneLeadingTagVerb (title : String) : String :=
  let stripped :=
    match title.data with
    | '[' :: rest =>
      match tagMatchLen rest with
      | some n => rest.drop n
      | none => title.data
    | _ => title.data
  let lowered := stripped.map Char.toLower
  let tok := lowered.takeWhile (fun c => ¬ c.isWhitespace)
  let tok2 := if tok.getLast? = some ':' then tok.dropLast else tok
  specSynonym (String.mk tok2)

theorem specFirstToken_eq_takeWhile (l : List Char) :
    specFirstToken l = l.takeWhile (fun c => c ≠ ' ') := by
  induction l with
  | nil => rfl
  | cons c rest ih =>
    by_cases h : c = ' '
    · simp [specFirstToken, List.takeWhile_cons, h]
    · simp [specFirstToken, List.takeWhile_cons, h, ih]

theorem specRemoveColons_eq_filter (l : List Char) :
    specRemoveColons l = l.filter (fun c => c ≠ ':') := by
  induction l with
  | nil => rfl
  | cons c rest ih =>
    by_cases h : c = ':'
    · simp [specRemoveColons, List.filter_cons, h, ih]
    · simp [specRemoveColons, List.filter_cons, h, ih]

theorem pySynonyms_eq_specSynonym (v : String) : pySynonyms v = specSynonym v := by
  have hadd1 : ("add" : String) ≠ "fixing" := by decide
  have hadd2 : ("add" : String) ≠ "removing" := by decide
  have hfix : ("fix" : String) ≠ "removing" := by decide
  have hfx1 : ("fixing" : String) ≠ "adding" := by decide
  have hfx2 : ("fixing" : String) ≠ "added" := by decide
  have hrm1 : ("removing" : String) ≠ "adding" := by decide
  have hrm2 : ("removing" : String) ≠ "added" := by decide
  have hrm3 : ("removing" : String) ≠ "fixing" := by decide
  unfold pySynonyms specSynonym
  by_cases h1 : v = "adding" ∨ v = "added"
  · simp [h1, hadd1, hadd2]
  · by_cases h2 : v = "fixing"
    · simp [h1, h2, hfix]
    · by_cases h3 : v = "removing"
      · simp [h1, h2, h3]
      · simp [h1, h2, h3]

theorem parsePrTitleVerb_eq_specAmendedVerb (title : String) :
    parsePrTitleVerb title = specAmendedVerb title := by
  unfold parsePrTitleVerb specAmendedVerb
  rw [specFirstToken_eq_takeWhile, specRemoveColons_eq_filter, pySynonyms_eq_specSynonym]

/-! ## Claim theorems on the review-pass counter and the title-verb parser -/

/-- C1: for every list of review events and commit events of one PR,
`_cnt_pr_passes` equals the number of strict commit→review adjacencies of the
time-sorted event sequence, with the scan started from an implicit "last event
was a commit" state; the event stream holds one event per review whose author
is not the PR author plus one event per commit; an empty stream yields 0. -/
theorem c1_review_passes_eq_commit_review_adjacencies
    (reviews : List Review) (commits : List Commit) (author : User) :
    cntPrPasses reviews commits author
        = commitReviewAdjacencies (sortedEvents reviews commits author)
      ∧ (eventsOf reviews commits author).length
        = (reviews.filter (fun r => r.user ≠ author)).length + commits.length
      ∧ commitReviewAdjacencies [] = 0 := by
  refine ⟨scanPasses_eq_adjacencies _ _, ?_, rfl⟩
  simp [eventsOf]

/-- C2 (amended): the event stream of `_cnt_pr_passes` is sorted ascending by
timestamp, and for events sharing a timestamp the stable sort keeps the input
construction order, which lists review events before commit events. -/
theorem c2_sorted_and_ties_keep_reviews_before_commits
    (reviews : List Review) (commits : List Commit) (author : User) (t : Int) :
    List.Sorted evtLe (sortedEvents reviews commits author)
      ∧ (sortedEvents reviews commits author).filter (fun e => decide (e.2 = t))
        = ((reviews.filter (fun r => r.user ≠ author)).map
            (fun r => (EvtType.review, r.submittedAt))).filter (fun e => decide (e.2 = t))
          ++ (commits.map (fun c => (EvtType.commit, c.authorDate))).filter
              (fun e => decide (e.2 = t)) := by
  constructor
  · exact List.sorted_insertionSort evtLe _
  · rw [sortedEvents, filter_time_insertionSort, eventsOf, List.filter_append]

/-- C2 counterexample: with one non-author review and one commit sharing
timestamp 5, the sorted event stream places the review event before the commit
event, refuting "the commit event is ordered before the review event". -/
theorem c2_counterexample :
    sortedEvents [⟨"bob", 5⟩] [⟨5⟩] "alice" = [(EvtType.review, 5), (EvtType.commit, 5)]
      ∧ EvtType.review ≠ EvtType.commit := by
  refine ⟨?_, by decide⟩
  rfl

/-- C10: `_cnt_pr_passes` is at most the number of reviews whose author
differs from the PR author; a PR with only self-reviews or no reviews
therefore has zero review passes. -/
theorem c10_review_passes_le_nonself_reviews
    (reviews : List Review) (commits : List Commit) (author : User) :
    cntPrPasses reviews commits author
      ≤ (reviews.filter (fun r => r.user ≠ author)).length := by
  have h := scanPasses_le_reviewCount EvtType.commit (sortedEvents reviews commits author)
  have hperm : List.Perm (sortedEvents reviews commits author) (eventsOf reviews commits author) :=
    List.perm_insertionSort evtLe _
  rw [hperm.countP_eq, countP_review_eventsOf] at h
  exact h

/-- C3 (amended): `_parse_pr_title_verb` removes every occurrence of a
bracketed tag `[<tag>] ` anywhere in the title (not only one leading tag),
lowercases, takes the first space-delimited token, removes every colon, and
applies the synonym table; the spec's three examples hold as stated. -/
theorem c3_title_verb_amended_pipeline :
    (∀ title : String, parsePrTitleVerb title = specAmendedVerb title)
      ∧ parsePrTitleVerb "[Team-X] Added foo" = "add"
      ∧ parsePrTitleVerb "Fix: bug" = "fix"
      ∧ parsePrTitleVerb "refactor stuff" = "refactor" :=
  ⟨parsePrTitleVerb_eq_specAmendedVerb, by decide, by decide, by decide⟩

/-- C3 counterexample: the extractor differs from the claim's algorithm as
worded.  On `"[A] [B] fix"` the source removes both bracketed tags and yields
`"fix"` while the claimed single-leading-tag algorithm yields `"[b]"`; on
`"fix\tbug now"` the source splits on spaces only; on `"::x: y"` the source
removes every colon, not just a trailing one. -/
theorem c3_counterexample :
    parsePrTitleVerb "[A] [B] fix" = "fix"
      ∧ specOneLeadingTagVerb "[A] [B] fix" = "[b]"
      ∧ parsePrTitleVerb "[A] [B] fix" ≠ specOneLeadingTagVerb "[A] [B] fix"
      ∧ parsePrTitleVerb "fix\tbug now" = "fix\tbug"
      ∧ specOneLeadingTagVerb "fix\tbug now" = "fix"
      ∧ parsePrTitleVerb "::x: y" = "x"
      ∧ specOneLeadingTagVerb "::x: y" = "::x" := by
  refine ⟨by decide, by decide, by decide, by decide, by decide, by decide, by decide⟩

/-! ## `_get_pr_meta_info` (analyze.py lines 38-48) -/

/-- The `PRMeta` named tuple. -/
structure PRMeta where
  reviewers : List User
  reviewPasses : Nat
  hoursToMerge : Option ℚ
  totalChanges : Nat
deriving DecidableEq

/-- `_get_pr_meta_info(pr)`.  The Python set
`set(requested_users + [review.user ...]) - set([pr.user])` is modelled as the
deduplicated concatenation with the PR author removed. -/
def getPrMetaInfo (pr : PR) : PRMeta :=
  { reviewers :=
      ((pr.requestedReviewers ++ pr.reviews.map (·.user)).dedup).filter (fun u => u ≠ pr.user)
    reviewPasses := cntPrPasses pr.reviews pr.commits pr.user
    hoursToMerge := pr.mergedAt.map (fun m => ((m : ℚ) - (pr.createdAt : ℚ)) / (60 * 60))
    totalChanges := pr.additions + pr.deletions }

/-! ## `PRAnalyzer.download` filter and the report projections -/

/-- Python `str.endswith`. -/
def pyEndsWith (s suffix : String) : Bool :=
  suffix.data.isSuffixOf s.data

/-- Line 73: `[pr for pr in prs if pr.user in team_users and
pr.base.label.endswith(":main")]`. -/
def validPrs (prs : List PR) (teamUsers : List User) : List PR :=
  prs.filter (fun pr => teamUsers.contains pr.user && pyEndsWith pr.baseLabel ":main")

/-- The element test `reviewer not in self.team_users` used by the
reviewer-indexed aggregations (kept reviewers only). -/
def teamReviewers (pr : PR) (teamUsers : List User) : List User :=
  ((getPrMetaInfo pr).reviewers).filter (fun u => teamUsers.contains u)

/-- `min(max_hours, meta.hours_to_merge)` as applied by the merged-PR reports;
the reports only evaluate it after filtering on `pr.merged_at`, which is what
makes the `getD 0` default unreachable (claim C9). -/
def cappedHours (maxHours : ℚ) (pr : PR) : ℚ :=
  min maxHours (((getPrMetaInfo pr).hoursToMerge).getD 0)

/-- Lines 101-103, `plot_hours_to_merge_histogram`: capped hours of merged
valid PRs. -/
def histogramHours (prs : List PR) (teamUsers : List User) (maxHours : ℚ) : List ℚ :=
  ((validPrs prs teamUsers).filter (fun pr => pr.mergedAt.isSome)).map (cappedHours maxHours)

/-- Lines 112-115, `plot_hours_to_merge_by_author_boxplot`: (capped hours,
author) rows of merged valid PRs (the source builds the two columns as two
parallel comprehensions over the same filtered list). -/
def hoursByAuthorRows (prs : List PR) (teamUsers : List User) (maxHours : ℚ) :
    List (ℚ × User) :=
  ((validPrs prs teamUsers).filter (fun pr => pr.mergedAt.isSome)).map
    (fun pr => (cappedHours maxHours pr, pr.user))

/-- Lines 229-233, `plot_changes_vs_hours_to_merge_scatter`: (capped hours,
total changes, author) rows of merged valid PRs. -/
def changesVsHoursRows (prs : List PR) (teamUsers : List User) (maxHours : ℚ) :
    List (ℚ × Nat × User) :=
  ((validPrs prs teamUsers).filter (fun pr => pr.mergedAt.isSome)).map
    (fun pr => (cappedHours maxHours pr, (getPrMetaInfo pr).totalChanges, pr.user))

/-- Lines 78-82, `get_summary_stats` input rows: (review passes, raw hours to
merge, total changes, reviewer count) of merged valid PRs. -/
def summaryRows (prs : List PR) (teamUsers : List User) :
    List (Nat × ℚ × Nat × Nat) :=
  ((validPrs prs teamUsers).filter (fun pr => pr.mergedAt.isSome)).map
    (fun pr => ((getPrMetaInfo pr).reviewPasses, ((getPrMetaInfo pr).hoursToMerge).getD 0,
      (getPrMetaInfo pr).totalChanges, (getPrMetaInfo pr).reviewers.length))

/-- Line 193, `plot_pr_verb_pie`: the list the verb counter is built from, one
verb per valid PR, merged or not. -/
def verbList (prs : List PR) (teamUsers : List User) : List String :=
  (validPrs prs teamUsers).map (fun pr => parsePrTitleVerb pr.title)

/-- Lines 243-245, `plot_review_passes_by_author_boxplot`: (review passes,
author) rows of merged valid PRs. -/
def reviewPassesByAuthorRows (prs : List PR) (teamUsers : List User) :
    List (Nat × User) :=
  ((validPrs prs teamUsers).filter (fun pr => pr.mergedAt.isSome)).map
    (fun pr => ((getPrMetaInfo pr).reviewPasses, pr.user))

/-- Lines 253-262, the first half of `plot_review_passes_by_reviewer_boxplot`:
the loop that collects one (review passes, reviewer) row per merged valid PR
and team-member reviewer. -/
def reviewPassesByReviewerLoopRows (prs : List PR) (teamUsers : List User) :
    List (Nat × User) :=
  ((validPrs prs teamUsers).filter (fun pr => pr.mergedAt.isSome)).flatMap
    (fun pr => (teamReviewers pr teamUsers).map
      (fun rv => ((getPrMetaInfo pr).reviewPasses, rv)))

/-- Lines 263-265, what `plot_review_passes_by_reviewer_boxplot` actually puts
in its table: lines 263-264 rebind `passes`/`users` to the per-author lists,
discarding the loop-built per-reviewer lists, so the "reviewer" column holds
the PR author of each merged valid PR. -/
def reviewPassesByReviewerRows (prs : List PR) (teamUsers : List User) :
    List (Nat × User) :=
  ((validPrs prs teamUsers).filter (fun pr => pr.mergedAt.isSome)).map
    (fun pr => ((getPrMetaInfo pr).reviewPasses, pr.user))

/-! ## `plot_hours_to_merge_user_heatmap` (analyze.py lines 203-227) -/

/-- One `author_reviewer_hours_to_merge[key].append(v)` step on an
insertion-ordered dict of lists (`collections.defaultdict(list)`). -/
def dictAdd (m : List ((User × User) × List ℚ)) (k : User × User) (v : ℚ) :
    List ((User × User) × List ℚ) :=
  match m with
  | [] => [(k, [v])]
  | e :: es => if e.1 = k then (e.1, e.2 ++ [v]) :: es else e :: dictAdd es k v

/-- The body of the loop of lines 205-213: an unmerged PR is skipped, a merged
PR appends its capped hours under `(author, reviewer)` for each of its
team-member reviewers. -/
def heatStep (teamUsers : List User) (maxHours : ℚ)
    (m : List ((User × User) × List ℚ)) (pr : PR) : List ((User × User) × List ℚ) :=
  if pr.mergedAt.isSome then
    (teamReviewers pr teamUsers).foldl
      (fun m' rv => dictAdd m' (pr.user, rv) (cappedHours maxHours pr)) m
  else m

/-- Lines 204-213: the `author_reviewer_hours_to_merge` dict, built by looping
over merged valid PRs and their team-member reviewers. -/
def heatPairs (prs : List PR) (teamUsers : List User) (maxHours : ℚ) :
    List ((User × User) × List ℚ) :=
  (validPrs prs teamUsers).foldl (heatStep teamUsers maxHours) []

/-- Line 214: `sorted([user.login for user in team_users])`. -/
def usernamesOf (teamUsers : List User) : List User :=
  teamUsers.insertionSort (fun a b => a ≤ b)

/-- `heatmap[i][j] = x` on a list-of-lists matrix. -/
def setCell (mat : List (List ℚ)) (i j : Nat) (x : ℚ) : List (List ℚ) :=
  mat.set i ((mat.getD i []).set j x)

/-- `heatmap[i][j]` on a list-of-lists matrix. -/
def getCell (mat : List (List ℚ)) (i j : Nat) : ℚ :=
  (mat.getD i []).getD j 0

/-- `sum(hours_to_merge) / len(hours_to_merge)`. -/
def listMean (l : List ℚ) : ℚ :=
  l.sum / l.length

/-- Lines 215-218: the zero-initialised `len(usernames) × len(usernames)`
matrix with each observed (author, reviewer) pair's mean written at row
`usernames[::-1].index(author)`, column `usernames.index(reviewer)`. -/
def heatmapMatrix (prs : List PR) (teamUsers : List User) (maxHours : ℚ) :
    List (List ℚ) :=
  let usernames := usernamesOf teamUsers
  let n := usernames.length
  (heatPairs prs teamUsers maxHours).foldl
    (fun mat e =>
      setCell mat (usernames.reverse.indexOf e.1.1) (usernames.indexOf e.1.2) (listMean e.2))
    (List.replicate n (List.replicate n 0))

/-- Spec-side description of the multiset a heatmap cell aggregates: one
capped hours-to-merge value per merged valid PR authored by `a` and having
team member `r` among its reviewers, in snapshot order. -/
def observedHeatHours (prs : List PR) (teamUsers : List User) (maxHours : ℚ)
    (a r : User) : List ℚ :=
  ((validPrs prs teamUsers).filter
      (fun pr => pr.mergedAt.isSome && pr.user == a && (teamReviewers pr teamUsers).contains r)).map
    (cappedHours maxHours)

/-! ## Example inputs used by the concrete claim instances -/

/-- A team-member PR against the main branch (base label in GitHub's
`owner:branch` form). -/
def alicePrMain : PR :=
  { title := "Add foo", user := "alice", baseLabel := "alice:main", createdAt := 0,
    mergedAt := some 3600, additions := 1, deletions := 0, requestedReviewers := [],
    reviews := [], commits := [] }

/-- A team-member PR against a non-main branch. -/
def alicePrDev : PR :=
  { title := "Add foo", user := "alice", baseLabel := "alice:dev", createdAt := 0,
    mergedAt := some 3600, additions := 1, deletions := 0, requestedReviewers := [],
    reviews := [], commits := [] }

/-- A PR by a non-team member against main. -/
def bobPrMain : PR :=
  { title := "Add foo", user := "bob", baseLabel := "bob:main", createdAt := 0,
    mergedAt := some 3600, additions := 1, deletions := 0, requestedReviewers := [],
    reviews := [], commits := [] }

/-- A team-member PR whose base label is a git ref path rather than GitHub's
`owner:branch` label form. -/
def aliceRefsHeadsPr : PR :=
  { title := "Add foo", user := "alice", baseLabel := "refs/heads/main", createdAt := 0,
    mergedAt := some 3600, additions := 1, deletions := 0, requestedReviewers := [],
    reviews := [], commits := [] }

/-- A PR whose recorded merge time precedes its creation time. -/
def timeWarpPr : PR :=
  { title := "Add foo", user := "alice", baseLabel := "alice:main", createdAt := 3600,
    mergedAt := some 0, additions := 1, deletions := 0, requestedReviewers := [],
    reviews := [], commits := [] }

/-- A PR whose author both requested self-review and reviewed their own PR. -/
def selfReviewPr : PR :=
  { title := "Add foo", user := "alice", baseLabel := "alice:main", createdAt := 0,
    mergedAt := none, additions := 0, deletions := 0, requestedReviewers := ["alice"],
    reviews := [⟨"alice", 5⟩], commits := [] }

/-- A merged valid PR by alice, reviewed by team member bob. -/
def c7Pr : PR :=
  { title := "Fix thing", user := "alice", baseLabel := "alice:main", createdAt := 0,
    mergedAt := some 7200, additions := 2, deletions := 1, requestedReviewers := ["bob"],
    reviews := [⟨"bob", 3600⟩], commits := [⟨100⟩] }

/-- The team of the C7 scenario. -/
def c7Team : List User := ["alice", "bob"]

/-- Membership in the `valid_prs` list, unfolded. -/
theorem mem_validPrs_iff (prs : List PR) (teamUsers : List User) (pr : PR) :
    pr ∈ validPrs prs teamUsers ↔
      pr ∈ prs ∧ pr.user ∈ teamUsers ∧ pyEndsWith pr.baseLabel ":main" = true := by
  simp [validPrs, List.mem_filter, and_assoc]

/-! ## Claim theorems on filtering, metadata and the reports -/

/-- C4 (amended): a fetched PR is kept iff its author is a team member and its
base branch label ends with `":main"`; GitHub base labels have the
`owner:branch` form, so a team-member PR with base label `"alice:main"` is
included, one with `"alice:dev"` is excluded, and a non-team author is
excluded regardless of base. -/
theorem c4_valid_pr_filter :
    (∀ (prs : List PR) (teamUsers : List User) (pr : PR),
        pr ∈ validPrs prs teamUsers ↔
          pr ∈ prs ∧ pr.user ∈ teamUsers ∧ pyEndsWith pr.baseLabel ":main" = true)
      ∧ validPrs [alicePrMain, alicePrDev, bobPrMain] ["alice", "carol"] = [alicePrMain] := by
  constructor
  · exact mem_validPrs_iff
  · decide

/-- C4 counterexample: the claim's example input, a team-member PR whose base
is the ref path `"refs/heads/main"`, is excluded by the code because that
label does not end with `":main"`. -/
theorem c4_counterexample :
    aliceRefsHeadsPr ∉ validPrs [aliceRefsHeadsPr] ["alice"]
      ∧ validPrs [aliceRefsHeadsPr] ["alice"] = [] := by
  refine ⟨by decide, by decide⟩

/-- C5: the `reviewers` set of the computed metadata never contains the PR's
own author, whether the author was a requested reviewer or reviewed their own
PR. -/
theorem c5_reviewers_never_contain_author (pr : PR) :
    pr.user ∉ (getPrMetaInfo pr).reviewers := by
  intro h
  rw [getPrMetaInfo] at h
  simp [List.mem_filter] at h

theorem c5_witness : "alice" ∉ (getPrMetaInfo selfReviewPr).reviewers :=
  c5_reviewers_never_contain_author selfReviewPr

/-- C6 (amended): `hours_to_merge` is null iff `merged_at` is null; otherwise
it equals `(merged_at - created_at)` in hours, and it is nonnegative whenever
the merge time is not earlier than the creation time. -/
theorem c6_hours_to_merge (pr : PR) :
    ((getPrMetaInfo pr).hoursToMerge = none ↔ pr.mergedAt = none)
      ∧ ∀ m : Int, pr.mergedAt = some m →
          (getPrMetaInfo pr).hoursToMerge = some (((m : ℚ) - (pr.createdAt : ℚ)) / (60 * 60))
            ∧ (pr.createdAt ≤ m → 0 ≤ ((m : ℚ) - (pr.createdAt : ℚ)) / (60 * 60)) := by
  refine ⟨?_, ?_⟩
  · cases h : pr.mergedAt <;> simp [getPrMetaInfo, h]
  · intro m hm
    refine ⟨by simp [getPrMetaInfo, hm], fun hle => ?_⟩
    apply div_nonneg
    · rw [sub_nonneg]
      exact_mod_cast hle
    · norm_num

theorem c6_witness :
    (getPrMetaInfo alicePrMain).hoursToMerge = some (((3600 : ℚ) - (0 : ℚ)) / (60 * 60))
      ∧ 0 ≤ ((3600 : ℚ) - (0 : ℚ)) / (60 * 60) := by
  have h := (c6_hours_to_merge alicePrMain).2 3600 rfl
  exact ⟨h.1, h.2 (by decide)⟩

/-- C6 counterexample: on a PR whose recorded merge time precedes its creation
time the code produces a negative `hours_to_merge`, refuting the
unconditional "≥ 0" part of the claim. -/
theorem c6_counterexample :
    (getPrMetaInfo timeWarpPr).hoursToMerge = some (-1) ∧ ¬ (0 : ℚ) ≤ (-1 : ℚ) := by
  constructor
  · rw [getPrMetaInfo]
    norm_num [timeWarpPr]
  · norm_num

/-- C7: the failing scenario for `plot_review_passes_by_reviewer_boxplot`.
One merged valid PR authored by alice with team-member reviewer bob: the
claimed (and dead-code-intended) table pairs the PR's review passes with
reviewer bob, but the code's table pairs them with author alice, because
lines 263-264 overwrite the loop-built per-reviewer lists. -/
theorem c7_review_passes_by_reviewer_rows_use_author :
    reviewPassesByReviewerRows [c7Pr] c7Team = [(1, "alice")]
      ∧ reviewPassesByReviewerLoopRows [c7Pr] c7Team = [(1, "bob")]
      ∧ reviewPassesByReviewerRows [c7Pr] c7Team
          ≠ reviewPassesByReviewerLoopRows [c7Pr] c7Team := by
  refine ⟨by decide, by decide, by decide⟩

theorem cappedHours_of_merged (maxHours : ℚ) (pr : PR) (h : pr.mergedAt.isSome) :
    cappedHours maxHours pr
      = min maxHours ((((pr.mergedAt.getD 0 : Int) : ℚ) - (pr.createdAt : ℚ)) / (60 * 60)) := by
  obtain ⟨m, hm⟩ := Option.isSome_iff_exists.mp h
  simp [cappedHours, getPrMetaInfo, hm]

/-- C9: the merge-time reports all filter on `pr.merged_at` first, so the null
`hours_to_merge` of an unmerged PR is never read and the `min(max_hours, ·)`
cap is only ever applied to the real merge duration; count-based reports such
as the title-verb list still range over every valid PR, merged or not. -/
theorem c9_merge_time_reports_restrict_to_merged
    (prs : List PR) (teamUsers : List User) (maxHours : ℚ) :
    (∀ pr ∈ validPrs prs teamUsers, pr.mergedAt.isSome →
        ((getPrMetaInfo pr).hoursToMerge).isSome)
      ∧ histogramHours prs teamUsers maxHours
        = ((validPrs prs teamUsers).filter (fun pr => pr.mergedAt.isSome)).map
            (fun pr => min maxHours
              ((((pr.mergedAt.getD 0 : Int) : ℚ) - (pr.createdAt : ℚ)) / (60 * 60)))
      ∧ (verbList prs teamUsers).length = (validPrs prs teamUsers).length
      ∧ ∀ pr ∈ validPrs prs teamUsers, parsePrTitleVerb pr.title ∈ verbList prs teamUsers := by
  refine ⟨?_, ?_, ?_, ?_⟩
  · intro pr _ hmerged
    obtain ⟨m, hm⟩ := Option.isSome_iff_exists.mp hmerged
    simp [getPrMetaInfo, hm]
  · rw [histogramHours]
    apply List.map_congr_left
    intro pr hpr
    exact cappedHours_of_merged maxHours pr (List.mem_filter.mp hpr).2
  · simp [verbList]
  · intro pr hpr
    exact List.mem_map_of_mem _ hpr

theorem c9_witness : ((getPrMetaInfo c7Pr).hoursToMerge).isSome = true := by
  have h := c9_merge_time_reports_restrict_to_merged [c7Pr] c7Team 120
  exact h.1 c7Pr (by decide) (by decide)

/-! ## Lemmas on the heatmap dict -/

/-- Value lookup in the modelled dict (the list a key accumulated, `[]` for an
absent key). -/
def lookupList (m : List ((User × User) × List ℚ)) (k : User × User) : List ℚ :=
  match m.find? (fun e => decide (e.1 = k)) with
  | some e => e.2
  | none => []

theorem lookupList_dictAdd_self (m : List ((User × User) × List ℚ))
    (k : User × User) (v : ℚ) :
    lookupList (dictAdd m k v) k = lookupList m k ++ [v] := by
  induction m with
  | nil => simp [dictAdd, lookupList, List.find?]
  | cons e es ih =>
    by_cases h : e.1 = k
    · simp [dictAdd, h, lookupList, List.find?]
    · simp only [dictAdd, if_neg h]
      simp only [lookupList, List.find?] at ih ⊢
      simp [h, ih]

theorem lookupList_dictAdd_ne (m : List ((User × User) × List ℚ))
    (k k' : User × User) (v : ℚ) (h : k' ≠ k) :
    lookupList (dictAdd m k' v) k = lookupList m k := by
  induction m with
  | nil => simp [dictAdd, lookupList, List.find?, h]
  | cons e es ih =>
    by_cases he : e.1 = k'
    · simp only [dictAdd, if_pos he]
      simp [lookupList, List.find?, he, h]
    · simp only [dictAdd, if_neg he]
      simp only [lookupList, List.find?] at ih ⊢
      by_cases hek : e.1 = k <;> simp [hek, ih]

theorem dictAdd_value_nonempty (m : List ((User × User) × List ℚ))
    (k : User × User) (v : ℚ) (hm : ∀ e ∈ m, e.2 ≠ []) :
    ∀ e ∈ dictAdd m k v, e.2 ≠ [] := by
  induction m with
  | nil =>
    intro e he
    simp [dictAdd] at he
    simp [he]
  | cons e0 es ih =>
    intro e he
    by_cases h : e0.1 = k
    · simp only [dictAdd, if_pos h, List.mem_cons] at he
      rcases he with he | he
      · simp [he]
      · exact hm e (List.mem_cons_of_mem _ he)
    · simp only [dictAdd, if_neg h, List.mem_cons] at he
      rcases he with he | he
      · exact he ▸ hm e0 (List.mem_cons_self _ _)
      · exact ih (fun e' he' => hm e' (List.mem_cons_of_mem _ he')) e he

theorem dictAdd_keys (m : List ((User × User) × List ℚ)) (k : User × User) (v : ℚ) :
    (dictAdd m k v).map (·.1)
      = if k ∈ m.map (·.1) then m.map (·.1) else m.map (·.1) ++ [k] := by
  induction m with
  | nil => simp [dictAdd]
  | cons e es ih =>
    by_cases h : e.1 = k
    · simp [dictAdd, h]
    · have hne : ¬ k = e.1 := fun hk => h hk.symm
      simp only [dictAdd, if_neg h, List.map_cons, List.mem_cons, ih]
      by_cases hk : k ∈ es.map (·.1) <;> simp [hk, hne]

theorem dictAdd_keys_nodup (m : List ((User × User) × List ℚ))
    (k : User × User) (v : ℚ) (hm : (m.map (·.1)).Nodup) :
    ((dictAdd m k v).map (·.1)).Nodup := by
  rw [dictAdd_keys]
  by_cases hk : k ∈ m.map (·.1)
  · simpa [hk] using hm
  · simp [hk, List.nodup_append, hm]

theorem dictAdd_key_prop (P : User × User → Prop)
    (m : List ((User × User) × List ℚ)) (k : User × User) (v : ℚ)
    (hm : ∀ e ∈ m, P e.1) (hk : P k) :
    ∀ e ∈ dictAdd m k v, P e.1 := by
  induction m with
  | nil =>
    intro e he
    simp [dictAdd] at he
    simpa [he] using hk
  | cons e0 es ih =>
    intro e he
    by_cases h : e0.1 = k
    · simp only [dictAdd, if_pos h, List.mem_cons] at he
      rcases he with he | he
      · simpa [he] using hm e0 (List.mem_cons_self _ _)
      · exact hm e (List.mem_cons_of_mem _ he)
    · simp only [dictAdd, if_neg h, List.mem_cons] at he
      rcases he with he | he
      · exact he ▸ hm e0 (List.mem_cons_self _ _)
      · exact ih (fun e' he' => hm e' (List.mem_cons_of_mem _ he')) e he

theorem teamReviewers_nodup (pr : PR) (teamUsers : List User) :
    (teamReviewers pr teamUsers).Nodup :=
  (((pr.requestedReviewers ++ pr.reviews.map (·.user)).nodup_dedup).filter _).filter _

theorem lookupList_revFold (u a r : User) (h : ℚ) (revs : List User)
    (m : List ((User × User) × List ℚ)) :
    lookupList (revs.foldl (fun m' rv => dictAdd m' (u, rv) h) m) (a, r)
      = lookupList m (a, r) ++ List.replicate (if u = a then revs.count r else 0) h := by
  induction revs generalizing m with
  | nil => simp
  | cons rv rest ih =>
    simp only [List.foldl_cons]
    rw [ih]
    by_cases hu : u = a
    · subst hu
      by_cases hr : rv = r
      · subst hr
        rw [lookupList_dictAdd_self, List.count_cons_self]
        simp [List.replicate_succ, List.append_assoc]
      · rw [lookupList_dictAdd_ne _ _ _ _ (by simp [hr])]
        rw [List.count_cons_of_ne (fun hc => hr hc.symm)]
    · rw [lookupList_dictAdd_ne _ _ _ _ (by simp [hu])]
      simp [hu]

theorem lookupList_prFold (teamUsers : List User) (maxHours : ℚ) (a r : User)
    (l : List PR) (m : List ((User × User) × List ℚ)) :
    lookupList (l.foldl (heatStep teamUsers maxHours) m) (a, r)
      = lookupList m (a, r)
        ++ (l.filter (fun pr => pr.mergedAt.isSome && pr.user == a
              && (teamReviewers pr teamUsers).contains r)).map (cappedHours maxHours) := by
  induction l generalizing m with
  | nil => simp
  | cons pr rest ih =>
    simp only [List.foldl_cons, List.filter_cons]
    rw [ih]
    by_cases hm : pr.mergedAt.isSome
    · rw [heatStep, if_pos hm, lookupList_revFold]
      have hnd : (teamReviewers pr teamUsers).Nodup := teamReviewers_nodup pr teamUsers
      by_cases hu : pr.user = a
      · by_cases hrv : r ∈ teamReviewers pr teamUsers
        · have hc : (teamReviewers pr teamUsers).count r = 1 :=
            List.count_eq_one_of_mem hnd hrv
          have hpred : (pr.mergedAt.isSome && pr.user == a
              && (teamReviewers pr teamUsers).contains r) = true := by
            simp [hm, hu, hrv]
          rw [hpred]
          simp [hu, hc, List.append_assoc]
        · have hc : (teamReviewers pr teamUsers).count r = 0 :=
            List.count_eq_zero.mpr hrv
          have hpred : (pr.mergedAt.isSome && pr.user == a
              && (teamReviewers pr teamUsers).contains r) = false := by
            simp [hrv]
          rw [hpred]
          simp [hu, hc]
      · have hpred : (pr.mergedAt.isSome && pr.user == a
            && (teamReviewers pr teamUsers).contains r) = false := by
          simp [hu]
        rw [hpred]
        simp [hu]
    · rw [heatStep, if_neg hm]
      have hpred : (pr.mergedAt.isSome && pr.user == a
          && (teamReviewers pr teamUsers).contains r) = false := by
        simp [hm]
      rw [hpred]
      simp

/-- The dict built by the heatmap loop holds, under key `(a, r)`, exactly the
capped hours of the merged valid PRs authored by `a` and reviewed by team
member `r`. -/
theorem lookupList_heatPairs (prs : List PR) (teamUsers : List User) (maxHours : ℚ)
    (a r : User) :
    lookupList (heatPairs prs teamUsers maxHours) (a, r)
      = observedHeatHours prs teamUsers maxHours a r := by
  rw [heatPairs, observedHeatHours, lookupList_prFold]
  simp [lookupList, List.find?]

theorem revFold_preserves {Q : List ((User × User) × List ℚ) → Prop} (u : User) (h : ℚ)
    (revs : List User) (m : List ((User × User) × List ℚ))
    (hQ : ∀ m' rv, rv ∈ revs → Q m' → Q (dictAdd m' (u, rv) h)) (hm : Q m) :
    Q (revs.foldl (fun m' rv => dictAdd m' (u, rv) h) m) := by
  induction revs generalizing m with
  | nil => exact hm
  | cons rv rest ih =>
    simp only [List.foldl_cons]
    exact ih _ (fun m' rv' hrv' => hQ m' rv' (List.mem_cons_of_mem _ hrv'))
      (hQ m rv (List.mem_cons_self _ _) hm)

theorem prFold_preserves {Q : List ((User × User) × List ℚ) → Prop}
    (teamUsers : List User) (maxHours : ℚ) (l : List PR)
    (m : List ((User × User) × List ℚ))
    (hQ : ∀ m' pr rv, pr ∈ l → rv ∈ teamReviewers pr teamUsers → Q m' →
      Q (dictAdd m' (pr.user, rv) (cappedHours maxHours pr))) (hm : Q m) :
    Q (l.foldl (heatStep teamUsers maxHours) m) := by
  induction l generalizing m with
  | nil => exact hm
  | cons pr rest ih =>
    simp only [List.foldl_cons]
    refine ih _ (fun m' pr' rv hpr' => hQ m' pr' rv (List.mem_cons_of_mem _ hpr')) ?_
    rw [heatStep]
    by_cases hmerged : pr.mergedAt.isSome
    · rw [if_pos hmerged]
      exact revFold_preserves _ _ _ _
        (fun m' rv hrv => hQ m' pr rv (List.mem_cons_self _ _) hrv) hm
    · rwa [if_neg hmerged]

/-- The heatmap dict has pairwise-distinct keys. -/
theorem heatPairs_keys_nodup (prs : List PR) (teamUsers : List User) (maxHours : ℚ) :
    ((heatPairs prs teamUsers maxHours).map (·.1)).Nodup := by
  rw [heatPairs]
  exact prFold_preserves teamUsers maxHours _ []
    (fun m' _ _ _ _ hq => dictAdd_keys_nodup m' _ _ hq) (by simp)

/-- Every value list of the heatmap dict is nonempty. -/
theorem heatPairs_values_nonempty (prs : List PR) (teamUsers : List User) (maxHours : ℚ) :
    ∀ e ∈ heatPairs prs teamUsers maxHours, e.2 ≠ [] := by
  rw [heatPairs]
  exact prFold_preserves teamUsers maxHours _ []
    (fun m' _ _ _ _ hq => dictAdd_value_nonempty m' _ _ hq) (by simp)

/-- Every key of the heatmap dict is a pair of team members (the author
because `valid_prs` keeps only team authors, the reviewer by the
`reviewer not in self.team_users` test). -/
theorem heatPairs_keys_mem_team (prs : List PR) (teamUsers : List User) (maxHours : ℚ) :
    ∀ e ∈ heatPairs prs teamUsers maxHours, e.1.1 ∈ teamUsers ∧ e.1.2 ∈ teamUsers := by
  rw [heatPairs]
  refine @prFold_preserves (fun m => ∀ e ∈ m, e.1.1 ∈ teamUsers ∧ e.1.2 ∈ teamUsers)
    teamUsers maxHours _ [] ?_ ?_
  · intro m' pr rv hpr hrv hq
    refine dictAdd_key_prop (fun k => k.1 ∈ teamUsers ∧ k.2 ∈ teamUsers) m' _ _ hq ?_
    constructor
    · exact ((mem_validPrs_iff prs teamUsers pr).mp hpr).2.1
    · have := (List.mem_filter.mp hrv).2
      simpa using this
  · intro e he
    exact absurd he (List.not_mem_nil e)

/-! ## Lemmas on the heatmap matrix -/

/-- The matrix shape invariant: `n` rows of `n` entries each. -/
def matrixDims (mat : List (List ℚ)) (n : Nat) : Prop :=
  mat.length = n ∧ ∀ row ∈ mat, row.length = n

theorem matrixDims_replicate (n : Nat) :
    matrixDims (List.replicate n (List.replicate n (0 : ℚ))) n := by
  refine ⟨by simp, ?_⟩
  intro row h
  rw [List.eq_of_mem_replicate h]
  simp

theorem getD_eq_getElem_of_lt {l : List (List ℚ)} {i : Nat} (h : i < l.length) :
    l.getD i [] = l[i] := by
  simp [List.getElem?_eq_getElem h]

theorem matrixDims_setCell {mat : List (List ℚ)} {n : Nat} (h : matrixDims mat n)
    (i j : Nat) (hi : i < n) (x : ℚ) :
    matrixDims (setCell mat i j x) n := by
  obtain ⟨hlen, hrows⟩ := h
  have hi' : i < mat.length := hlen ▸ hi
  refine ⟨by simp [setCell, hlen], ?_⟩
  intro row hrow
  rcases List.mem_or_eq_of_mem_set hrow with h1 | h1
  · exact hrows row h1
  · subst h1
    rw [List.length_set, getD_eq_getElem_of_lt hi']
    exact hrows _ (List.getElem_mem hi')

theorem getCell_setCell_self {mat : List (List ℚ)} {n i j : Nat}
    (h : matrixDims mat n) (hi : i < n) (hj : j < n) (x : ℚ) :
    getCell (setCell mat i j x) i j = x := by
  obtain ⟨hlen, hrows⟩ := h
  have hi' : i < mat.length := hlen ▸ hi
  have hj' : j < (mat.getD i []).length := by
    rw [getD_eq_getElem_of_lt hi', hrows _ (List.getElem_mem hi')]
    exact hj
  have h1 : (mat.set i ((mat.getD i []).set j x)).getD i [] = (mat.getD i []).set j x := by
    rw [List.getD_eq_getElem?_getD, List.getElem?_set_self hi']
    rfl
  have h2 : ((mat.getD i []).set j x).getD j 0 = x := by
    rw [List.getD_eq_getElem?_getD, List.getElem?_set_self hj']
    rfl
  rw [getCell, setCell, h1, h2]

theorem getCell_setCell_ne {mat : List (List ℚ)} {i' j' i j : Nat}
    (hne : ¬ (i' = i ∧ j' = j)) (x : ℚ) :
    getCell (setCell mat i' j' x) i j = getCell mat i j := by
  by_cases hii : i' = i
  · subst hii
    have hjj : j' ≠ j := fun hj => hne ⟨rfl, hj⟩
    by_cases hi : i' < mat.length
    · have h1 : (mat.set i' ((mat.getD i' []).set j' x)).getD i' []
          = (mat.getD i' []).set j' x := by
        rw [List.getD_eq_getElem?_getD, List.getElem?_set_self hi]
        rfl
      rw [getCell, setCell, h1, getCell, List.getD_eq_getElem?_getD,
        List.getD_eq_getElem?_getD, List.getElem?_set_ne hjj]
      simp
    · rw [getCell, setCell, List.set_eq_of_length_le (Nat.le_of_not_lt hi)]
      rfl
  · rw [getCell, setCell, getCell, List.getD_eq_getElem?_getD, List.getD_eq_getElem?_getD,
      List.getElem?_set_ne hii]
    simp

/-- The assignment loop of lines 216-218 abstracted over the computed cell
coordinates: write each value at its cell, in order. -/
def writeCells (mat : List (List ℚ)) (ws : List ((Nat × Nat) × ℚ)) : List (List ℚ) :=
  ws.foldl (fun m w => setCell m w.1.1 w.1.2 w.2) mat

theorem writeCells_dims {n : Nat} {ws : List ((Nat × Nat) × ℚ)} {mat : List (List ℚ)}
    (h : matrixDims mat n) (hb : ∀ w ∈ ws, w.1.1 < n) :
    matrixDims (writeCells mat ws) n := by
  induction ws generalizing mat with
  | nil => exact h
  | cons w ws' ih =>
    rw [writeCells, List.foldl_cons]
    exact ih (matrixDims_setCell h w.1.1 w.1.2 (hb w (List.mem_cons_self _ _)) w.2)
      (fun w' hw' => hb w' (List.mem_cons_of_mem _ hw'))

theorem getCell_writeCells_not_mem {n i j : Nat} {ws : List ((Nat × Nat) × ℚ)}
    {mat : List (List ℚ)} (h : matrixDims mat n) (hb : ∀ w ∈ ws, w.1.1 < n)
    (hall : ∀ w ∈ ws, ¬ (w.1.1 = i ∧ w.1.2 = j)) :
    getCell (writeCells mat ws) i j = getCell mat i j := by
  induction ws generalizing mat with
  | nil => rfl
  | cons w ws' ih =>
    rw [writeCells, List.foldl_cons]
    have step := ih (matrixDims_setCell h w.1.1 w.1.2 (hb w (List.mem_cons_self _ _)) w.2)
      (fun w' hw' => hb w' (List.mem_cons_of_mem _ hw'))
      (fun w' hw' => hall w' (List.mem_cons_of_mem _ hw'))
    rw [writeCells] at step
    rw [step, getCell_setCell_ne (hall w (List.mem_cons_self _ _)) _]

theorem getCell_writeCells_nodup {n i j : Nat} {ws : List ((Nat × Nat) × ℚ)}
    {mat : List (List ℚ)} (h : matrixDims mat n) (hi : i < n) (hj : j < n)
    (hb : ∀ w ∈ ws, w.1.1 < n) (hnd : (ws.map (·.1)).Nodup) :
    getCell (writeCells mat ws) i j
      = match ws.find? (fun w => decide (w.1 = (i, j))) with
        | some w => w.2
        | none => getCell mat i j := by
  induction ws generalizing mat with
  | nil => rfl
  | cons w ws' ih =>
    have hb' : ∀ w' ∈ ws', w'.1.1 < n := fun w' hw' => hb w' (List.mem_cons_of_mem _ hw')
    have hnd' : (ws'.map (·.1)).Nodup := (List.nodup_cons.mp hnd).2
    rw [writeCells, List.foldl_cons]
    by_cases hw : w.1 = (i, j)
    · have hnotin : w.1 ∉ ws'.map (·.1) := (List.nodup_cons.mp hnd).1
      have hall : ∀ w' ∈ ws', ¬ (w'.1.1 = i ∧ w'.1.2 = j) := by
        intro w' hw' hc
        apply hnotin
        rw [hw]
        have : w'.1 = (i, j) := Prod.ext hc.1 hc.2
        rw [← this]
        exact List.mem_map_of_mem _ hw'
      have step := getCell_writeCells_not_mem
        (matrixDims_setCell h w.1.1 w.1.2 (hb w (List.mem_cons_self _ _)) w.2) hb' hall
      rw [writeCells] at step
      rw [step]
      obtain ⟨hwi, hwj⟩ := Prod.mk.injEq .. ▸ hw
      rw [List.find?_cons_of_pos _ (by simp [hw])]
      rw [hwi, hwj] at *
      exact getCell_setCell_self h hi hj _
    · have step := ih (matrixDims_setCell h w.1.1 w.1.2 (hb w (List.mem_cons_self _ _)) w.2) hb' hnd'
      rw [writeCells] at step
      rw [step, List.find?_cons_of_neg _ (by simp [hw])]
      cases hf : ws'.find? (fun w' => decide (w'.1 = (i, j))) with
      | some w' => rfl
      | none =>
        simp only []
        exact getCell_setCell_ne (fun hc => hw (Prod.ext hc.1 hc.2)) _

theorem heatmapMatrix_eq_writeCells (prs : List PR) (teamUsers : List User) (maxHours : ℚ) :
    heatmapMatrix prs teamUsers maxHours
      = writeCells
          (List.replicate (usernamesOf teamUsers).length
            (List.replicate (usernamesOf teamUsers).length 0))
          ((heatPairs prs teamUsers maxHours).map
            (fun e => (((usernamesOf teamUsers).reverse.indexOf e.1.1,
                        (usernamesOf teamUsers).indexOf e.1.2), listMean e.2))) := by
  simp only [heatmapMatrix, writeCells, List.foldl_map]

theorem getCell_replicate (n i j : Nat) :
    getCell (List.replicate n (List.replicate n (0 : ℚ))) i j = 0 := by
  rw [getCell]
  rcases Nat.lt_or_ge i n with hi | hi
  · have h1 : (List.replicate n (List.replicate n (0 : ℚ))).getD i [] = List.replicate n 0 := by
      rw [List.getD_eq_getElem?_getD, List.getElem?_replicate_of_lt hi]
      rfl
    rw [h1]
    rcases Nat.lt_or_ge j n with hj | hj
    · rw [List.getD_eq_getElem?_getD, List.getElem?_replicate_of_lt hj]
      rfl
    · rw [List.getD_eq_getElem?_getD, List.getElem?_replicate, if_neg (Nat.not_lt_of_ge hj)]
      rfl
  · have h1 : (List.replicate n (List.replicate n (0 : ℚ))).getD i [] = [] := by
      rw [List.getD_eq_getElem?_getD, List.getElem?_replicate, if_neg (Nat.not_lt_of_ge hi)]
      rfl
    rw [h1]
    simp

theorem find?_congr_mem {α : Type} (l : List α) (p q : α → Bool)
    (h : ∀ x ∈ l, p x = q x) : l.find? p = l.find? q := by
  induction l with
  | nil => rfl
  | cons x xs ih =>
    have hx := h x (List.mem_cons_self _ _)
    cases hp : p x with
    | true =>
      rw [List.find?_cons_of_pos _ hp, List.find?_cons_of_pos _ (hx ▸ hp)]
    | false =>
      rw [List.find?_cons_of_neg _ (by simp [hp]), List.find?_cons_of_neg _ (by simp [hx ▸ hp])]
      exact ih (fun x' hx' => h x' (List.mem_cons_of_mem _ hx'))

/-- C8: in the author×reviewer heatmap, for team members `a` and `r`, the cell
at row `usernames[::-1].index(a)`, column `usernames.index(r)` is exactly 0
when the pair is never observed among merged valid PRs, and otherwise holds
the mean of that pair's per-PR hours-to-merge values capped at `max_hours`. -/
theorem c8_heatmap_cells (prs : List PR) (teamUsers : List User) (maxHours : ℚ)
    (a r : User) (ha : a ∈ teamUsers) (hr : r ∈ teamUsers) :
    getCell (heatmapMatrix prs teamUsers maxHours)
        ((usernamesOf teamUsers).reverse.indexOf a) ((usernamesOf teamUsers).indexOf r)
      = if observedHeatHours prs teamUsers maxHours a r = [] then 0
        else listMean (observedHeatHours prs teamUsers maxHours a r) := by
  have hmemU : ∀ u : User, u ∈ teamUsers → u ∈ usernamesOf teamUsers := by
    intro u hu
    rw [usernamesOf, List.mem_insertionSort]
    exact hu
  have haU : a ∈ usernamesOf teamUsers := hmemU a ha
  have hrU : r ∈ usernamesOf teamUsers := hmemU r hr
  have haUrev : a ∈ (usernamesOf teamUsers).reverse := List.mem_reverse.mpr haU
  have hi : (usernamesOf teamUsers).reverse.indexOf a < (usernamesOf teamUsers).length := by
    have := List.indexOf_lt_length.mpr haUrev
    simpa using this
  have hj : (usernamesOf teamUsers).indexOf r < (usernamesOf teamUsers).length :=
    List.indexOf_lt_length.mpr hrU
  have hkeys := heatPairs_keys_mem_team prs teamUsers maxHours
  have hb : ∀ w ∈ (heatPairs prs teamUsers maxHours).map
      (fun e => (((usernamesOf teamUsers).reverse.indexOf e.1.1,
                  (usernamesOf teamUsers).indexOf e.1.2), listMean e.2)),
      w.1.1 < (usernamesOf teamUsers).length := by
    intro w hw
    obtain ⟨e, he, rfl⟩ := List.mem_map.mp hw
    have h1 : e.1.1 ∈ (usernamesOf teamUsers).reverse :=
      List.mem_reverse.mpr (hmemU _ (hkeys e he).1)
    have := List.indexOf_lt_length.mpr h1
    simpa using this
  have hnd : (((heatPairs prs teamUsers maxHours).map
      (fun e => (((usernamesOf teamUsers).reverse.indexOf e.1.1,
                  (usernamesOf teamUsers).indexOf e.1.2), listMean e.2))).map (·.1)).Nodup := by
    have hmap : ((heatPairs prs teamUsers maxHours).map
        (fun e => (((usernamesOf teamUsers).reverse.indexOf e.1.1,
                    (usernamesOf teamUsers).indexOf e.1.2), listMean e.2))).map (·.1)
        = ((heatPairs prs teamUsers maxHours).map (·.1)).map
            (fun k => ((usernamesOf teamUsers).reverse.indexOf k.1,
                       (usernamesOf teamUsers).indexOf k.2)) := by
      simp [List.map_map, Function.comp_def]
    rw [hmap]
    refine List.Nodup.map_on ?_ (heatPairs_keys_nodup prs teamUsers maxHours)
    intro k hk k' hk' heq
    obtain ⟨e, he, rfl⟩ := List.mem_map.mp hk
    obtain ⟨e', he', rfl⟩ := List.mem_map.mp hk'
    have hmem := hkeys e he
    have hmem' := hkeys e' he'
    have h1 : e.1.1 = e'.1.1 := by
      have := (Prod.mk.injEq .. ▸ heq).1
      exact (List.indexOf_inj (List.mem_reverse.mpr (hmemU _ hmem.1))
        (List.mem_reverse.mpr (hmemU _ hmem'.1))).mp this
    have h2 : e.1.2 = e'.1.2 := by
      have := (Prod.mk.injEq .. ▸ heq).2
      exact (List.indexOf_inj (hmemU _ hmem.2) (hmemU _ hmem'.2)).mp this
    exact Prod.ext h1 h2
  rw [heatmapMatrix_eq_writeCells,
    getCell_writeCells_nodup (matrixDims_replicate _) hi hj hb hnd]
  have hfind : ((heatPairs prs teamUsers maxHours).map
      (fun e => (((usernamesOf teamUsers).reverse.indexOf e.1.1,
                  (usernamesOf teamUsers).indexOf e.1.2), listMean e.2))).find?
        (fun w => decide (w.1 = ((usernamesOf teamUsers).reverse.indexOf a,
                                 (usernamesOf teamUsers).indexOf r)))
      = ((heatPairs prs teamUsers maxHours).find?
          (fun e => decide (e.1 = (a, r)))).map
          (fun e => (((usernamesOf teamUsers).reverse.indexOf e.1.1,
                      (usernamesOf teamUsers).indexOf e.1.2), listMean e.2)) := by
    rw [List.find?_map]
    congr 1
    apply find?_congr_mem
    intro e he
    have hmem := hkeys e he
    apply decide_eq_decide.mpr
    constructor
    · intro hpair
      have hp1 : (usernamesOf teamUsers).reverse.indexOf e.1.1
          = (usernamesOf teamUsers).reverse.indexOf a := congrArg Prod.fst hpair
      have hp2 : (usernamesOf teamUsers).indexOf e.1.2
          = (usernamesOf teamUsers).indexOf r := congrArg Prod.snd hpair
      have h1 : e.1.1 = a :=
        (List.indexOf_inj (List.mem_reverse.mpr (hmemU _ hmem.1)) haUrev).mp hp1
      have h2 : e.1.2 = r := (List.indexOf_inj (hmemU _ hmem.2) hrU).mp hp2
      exact Prod.ext h1 h2
    · intro hpair
      have h1 : e.1.1 = a := congrArg Prod.fst hpair
      have h2 : e.1.2 = r := congrArg Prod.snd hpair
      show ((usernamesOf teamUsers).reverse.indexOf e.1.1,
            (usernamesOf teamUsers).indexOf e.1.2)
          = ((usernamesOf teamUsers).reverse.indexOf a, (usernamesOf teamUsers).indexOf r)
      rw [h1, h2]
  have hlookup := lookupList_heatPairs prs teamUsers maxHours a r
  rw [lookupList] at hlookup
  cases hf : (heatPairs prs teamUsers maxHours).find? (fun e => decide (e.1 = (a, r))) with
  | none =>
    rw [hf] at hlookup
    rw [hfind, hf]
    simp only [Option.map_none']
    rw [getCell_replicate, ← hlookup]
    simp
  | some e =>
    rw [hf] at hlookup
    rw [hfind, hf]
    simp only [Option.map_some']
    have hne : observedHeatHours prs teamUsers maxHours a r ≠ [] := by
      rw [← hlookup]
      exact heatPairs_values_nonempty prs teamUsers maxHours e (List.mem_of_find?_eq_some hf)
    rw [if_neg hne, ← hlookup]

theorem c8_witness :
    getCell (heatmapMatrix [c7Pr] c7Team 120)
        ((usernamesOf c7Team).reverse.indexOf "alice") ((usernamesOf c7Team).indexOf "bob")
      = 2 := by
  have h := c8_heatmap_cells [c7Pr] c7Team 120 "alice" "bob" (by decide) (by decide)
  rw [h]
  have hval : validPrs [c7Pr] c7Team = [c7Pr] := by decide
  have hpred : (c7Pr.mergedAt.isSome && c7Pr.user == "alice"
      && (teamReviewers c7Pr c7Team).contains "bob") = true := by decide
  have hcap : cappedHours 120 c7Pr = 2 := by
    rw [cappedHours]
    have hh : (getPrMetaInfo c7Pr).hoursToMerge = some 2 := by
      norm_num [getPrMetaInfo, c7Pr, Option.map_some']
    rw [hh]
    show min 120 (2 : ℚ) = 2
    exact min_eq_right (by norm_num)
  have hobs : observedHeatHours [c7Pr] c7Team 120 "alice" "bob" = [2] := by
    rw [observedHeatHours, hval, List.filter_cons, if_pos hpred]
    simp only [List.filter_nil, List.map_cons, List.map_nil, hcap]
  rw [hobs, if_neg (by simp)]
  rw [listMean]
  norm_num

end GithubAnalytics
